import Mathlib

/-
  Verification of the virtual DNS resolver (src/virtual_dns.rs).

  The resolver is embedded shallowly:
  * IP addresses are big-endian byte lists (`Addr`); IPv4 addresses have
    length 4 and IPv6 addresses length 16, with every byte below 256.
  * domain names are character lists (`Name`);
  * the hashlink `LruCache` is a list of (address, name) pairs ordered from
    least-recently-used (front) to most-recently-used (back); per the
    documented table contract the cache itself performs no automatic
    eviction — eviction policy lives entirely in the allocator;
  * the `HashMap` reverse index is an association list with unique keys;
  * the allocation probe loop is expressed with explicit fuel; the
    allocator passes `poolSize` as fuel, which is proved sufficient for the
    loop to reach either a vacancy or its wraparound termination check.
-/

namespace VDns

/-- An IP address as a big-endian list of bytes (length 4 for IPv4,
length 16 for IPv6). -/
abbrev Addr := List Nat

/-- A domain name as a list of characters. -/
abbrev Name := List Char

/-- The integer value of a big-endian byte list. -/
def bytesToNat : Addr → Nat
  | [] => 0
  | b :: rest => b * 256 ^ rest.length + bytesToNat rest

/-- All bytes of the address are genuine bytes (below 256). -/
def validBytes (a : Addr) : Prop := ∀ b ∈ a, b < 256

instance validBytes.dec (a : Addr) : Decidable (validBytes a) := by
  unfold validBytes; infer_instance

/-- One step of `increment_ip`: traverse bytes from right to left, zeroing
`255` bytes until a byte can be incremented without carry.  Returns the new
bytes together with the outgoing carry (the carry is `true` exactly when
every byte was 255). -/
def incBytes : List Nat → List Nat × Bool
  | [] => ([], true)
  | b :: rest =>
    match incBytes rest with
    | (rest1, true) => if b ≠ 255 then ((b + 1) :: rest1, false) else (0 :: rest1, true)
    | (rest1, false) => (b :: rest1, false)

/-- `increment_ip` from the source: add one to the address, with byte-wise
carry from the least significant byte; on overflow the result is all
zeroes. -/
def increment_ip (a : Addr) : Addr := (incBytes a).1

/-- Lexicographic (octet-wise) strict order on addresses, the order used by
the source's address comparisons. -/
def ipLt : Addr → Addr → Bool
  | [], [] => false
  | [], _ :: _ => true
  | _ :: _, [] => false
  | a :: as1, b :: bs1 => if a < b then true else if a = b then ipLt as1 bs1 else false

/-- The wraparound rule applied after every cursor advance in the source:
if the address fell outside `[network_addr, broadcast_addr]`, reset it to
`network_addr`. -/
def wrapInRange (net bro a : Addr) : Addr :=
  if ipLt bro a || ipLt a net then net else a

/-- Increment an address and apply the wraparound rule (the composite the
source performs at each of its three cursor updates). -/
def advance (net bro a : Addr) : Addr := wrapInRange net bro (increment_ip a)

/-- `name.ends_with('.')` from the source. -/
def endsWithDot (n : Name) : Bool :=
  match n.reverse with
  | [] => false
  | c :: _ => decide (c = '.')

/-- `name.trim_end_matches('.')` from the source: remove every trailing
dot. -/
def trimEndDots (n : Name) : Name :=
  ((n.reverse).dropWhile (fun c => decide (c = '.'))).reverse

/-- The canonical cache key computed at the top of `find_or_allocate_ip`. -/
def canonicalize (trailing_dot : Bool) (n : Name) : Name :=
  if endsWithDot n && !trailing_dot then trimEndDots n else n

/-- `HashMap` lookup on the reverse index. -/
def mapLookup (m : List (Name × Addr)) (n : Name) : Option Addr :=
  (m.find? (fun p => decide (p.1 = n))).map (fun p => p.2)

/-- `HashMap::remove` on the reverse index. -/
def mapRemove (m : List (Name × Addr)) (n : Name) : List (Name × Addr) :=
  m.filter (fun p => ! decide (p.1 = n))

/-- `HashMap::insert` on the reverse index (replaces any entry at that
key). -/
def mapInsert (m : List (Name × Addr)) (n : Name) (a : Addr) : List (Name × Addr) :=
  mapRemove m n ++ [(n, a)]

/-- The cache entry stored under an address, if any. -/
def lruFind (c : List (Addr × Name)) (a : Addr) : Option (Addr × Name) :=
  c.find? (fun p => decide (p.1 = a))

/-- Whether the cache holds an entry for the address (the raw-entry
occupancy probe of the allocation loop). -/
def lruContains (c : List (Addr × Name)) (a : Addr) : Bool := (lruFind c a).isSome

/-- `LruCache::get`: promote the entry at the address (if any) to
most-recently-used. -/
def lruTouch (c : List (Addr × Name)) (a : Addr) : List (Addr × Name) :=
  match lruFind c a with
  | some p => c.filter (fun q => ! decide (q.1 = a)) ++ [p]
  | none => c

/-- `LruCache::insert` / raw-entry insert: store the entry at the address
as most-recently-used, replacing any previous entry at that address. -/
def lruInsert (c : List (Addr × Name)) (a : Addr) (n : Name) : List (Addr × Name) :=
  c.filter (fun q => ! decide (q.1 = a)) ++ [(a, n)]

/-- The resolver state (`struct VirtualDns`).  The LRU cache is ordered
from least- to most-recently-used. -/
structure VirtualDns where
  trailing_dot : Bool
  lru_cache : List (Addr × Name)
  capacity : Nat
  name_to_ip : List (Name × Addr)
  network_addr : Addr
  broadcast_addr : Addr
  next_addr : Addr
deriving DecidableEq

/-- The capacity computed in `new`: for the 4-byte family the `u32`
subtraction `b - n + 1` wraps modulo `2^32` before widening to `usize`;
for the 16-byte family the `u128` count is truncated by `as usize` to the
64-bit machine word. -/
def derivedCapacity (net bro : Addr) : Nat :=
  if net.length = 4 then (bytesToNat bro - bytesToNat net + 1) % 2 ^ 32
  else (bytesToNat bro - bytesToNat net + 1) % 2 ^ 64

/-- `VirtualDns::new`: empty table and index, cursor at the start of the
pool, trailing dots not preserved. -/
def new (net bro : Addr) : VirtualDns :=
  { trailing_dot := false
    lru_cache := []
    capacity := derivedCapacity net bro
    name_to_ip := []
    network_addr := net
    broadcast_addr := bro
    next_addr := net }

/-- `touch_ip`: refresh recency of the entry at the address. -/
def touch_ip (s : VirtualDns) (a : Addr) : VirtualDns :=
  { s with lru_cache := lruTouch s.lru_cache a }

/-- `resolve_ip`: return the name bound to the address (refreshing its
recency), together with the updated state. -/
def resolve_ip (s : VirtualDns) (a : Addr) : Option Name × VirtualDns :=
  ((lruFind s.lru_cache a).map (fun p => p.2), touch_ip s a)

/-- The number of addresses in the configured pool; used as fuel for the
allocation probe loop, which is proved to terminate within this many
iterations. -/
def poolSize (s : VirtualDns) : Nat :=
  bytesToNat s.broadcast_addr - bytesToNat s.network_addr + 1

/-- The allocation failure message of the source. -/
def exhaustedMsg : String := "Virtual IP space for DNS exhausted"

/-- The eviction block of `find_or_allocate_ip` (it appears verbatim twice
in the source): after `remove_lru` returned `(old_ip, old_name)` leaving
`rest`, drop `old_name` from the reverse index, bind `insert_name` to
`old_ip` in both structures, and advance the cursor past `old_ip`. -/
def evictState (s : VirtualDns) (rest : List (Addr × Name)) (old_ip : Addr)
    (old_name insert_name : Name) : VirtualDns :=
  { s with
    lru_cache := lruInsert rest old_ip insert_name
    name_to_ip := mapInsert (mapRemove s.name_to_ip old_name) insert_name old_ip
    next_addr := advance s.network_addr s.broadcast_addr old_ip }

/-- The probe loop of `find_or_allocate_ip`: scan forward from the cursor
for a vacant address, wrapping at the pool boundary; if the scan returns to
its starting point, fall back to LRU eviction, and fail with the
exhaustion error if the cache is empty.  `fuel` bounds the number of
iterations; the allocator supplies `poolSize`, which suffices for the scan
to reach the vacancy or the wraparound check. -/
def findLoop (insert_name : Name) (started : Addr) :
    Nat → VirtualDns → Except String Addr × VirtualDns
  | 0, s => (Except.error exhaustedMsg, s)
  | fuel + 1, s =>
    if lruContains s.lru_cache s.next_addr then
      let nxt := advance s.network_addr s.broadcast_addr s.next_addr
      let s1 : VirtualDns := { s with next_addr := nxt }
      if nxt = started then
        match s1.lru_cache with
        | (old_ip, old_name) :: rest =>
          (Except.ok old_ip, evictState s1 rest old_ip old_name insert_name)
        | [] => (Except.error exhaustedMsg, s1)
      else findLoop insert_name started fuel s1
    else
      let allocated := s.next_addr
      (Except.ok allocated,
        { s with
          lru_cache := lruInsert s.lru_cache allocated insert_name
          name_to_ip := mapInsert s.name_to_ip insert_name allocated
          next_addr := advance s.network_addr s.broadcast_addr allocated })

/-- `find_or_allocate_ip`: canonicalize the name; return its address if
already mapped (refreshing recency); otherwise evict the LRU entry if at
capacity, and else probe the pool from the cursor. -/
def find_or_allocate_ip (s : VirtualDns) (name : Name) :
    Except String Addr × VirtualDns :=
  let insert_name := canonicalize s.trailing_dot name
  match mapLookup s.name_to_ip insert_name with
  | some ip => (Except.ok ip, { s with lru_cache := lruTouch s.lru_cache ip })
  | none =>
    if s.lru_cache.length = s.capacity then
      match s.lru_cache with
      | (old_ip, old_name) :: rest =>
        (Except.ok old_ip, evictState s rest old_ip old_name insert_name)
      | [] => findLoop insert_name s.next_addr (poolSize s) s
    else findLoop insert_name s.next_addr (poolSize s) s

/-- The public operations of the resolver. -/
inductive Op where
  | findOp (name : Name)
  | touchOp (a : Addr)
  | resolveOp (a : Addr)
deriving DecidableEq

/-- The state transition of one operation. -/
def step (s : VirtualDns) : Op → VirtualDns
  | Op.findOp n => (find_or_allocate_ip s n).2
  | Op.touchOp a => touch_ip s a
  | Op.resolveOp a => (resolve_ip s a).2

/-- Run a sequence of operations. -/
def run (s : VirtualDns) (ops : List Op) : VirtualDns := ops.foldl step s

/-- A concrete full two-entry resolver state over the pool
10.0.0.0-10.0.0.1, used to witness the hypothesis-bearing theorems. -/
def wstate : VirtualDns :=
  { trailing_dot := false
    lru_cache := [([10, 0, 0, 0], ['a']), ([10, 0, 0, 1], ['b'])]
    capacity := 2
    name_to_ip := [(['a'], [10, 0, 0, 0]), (['b'], [10, 0, 0, 1])]
    network_addr := [10, 0, 0, 0]
    broadcast_addr := [10, 0, 0, 1]
    next_addr := [10, 0, 0, 0] }

/-- The bijection/capacity invariant on a cache, reverse index and
capacity: the two structures hold exactly the same pairs, with no
duplicate address or name anywhere, and (for a positive capacity) the
occupancy never exceeds the capacity. -/
structure InvT (c : List (Addr × Name)) (m : List (Name × Addr)) (cap : Nat) : Prop where
  bij : ∀ a n, (a, n) ∈ c ↔ (n, a) ∈ m
  addr_nodup : (c.map Prod.fst).Nodup
  name_nodup : (c.map Prod.snd).Nodup
  key_nodup : (m.map Prod.fst).Nodup
  cap_bound : 1 ≤ cap → c.length ≤ cap

/-- The invariant of a resolver state. -/
def Inv (s : VirtualDns) : Prop := InvT s.lru_cache s.name_to_ip s.capacity

/-- Geometric well-formedness of a resolver state: the pool bounds are
well formed and every address the state holds (the cursor and every cache
key) lies inside the pool. -/
structure Geo (s : VirtualDns) : Prop where
  bro_len : s.broadcast_addr.length = s.network_addr.length
  net_valid : validBytes s.network_addr
  bro_valid : validBytes s.broadcast_addr
  net_le_bro : bytesToNat s.network_addr ≤ bytesToNat s.broadcast_addr
  next_len : s.next_addr.length = s.network_addr.length
  next_valid : validBytes s.next_addr
  next_lo : bytesToNat s.network_addr ≤ bytesToNat s.next_addr
  next_hi : bytesToNat s.next_addr ≤ bytesToNat s.broadcast_addr
  keys_len : ∀ p ∈ s.lru_cache, (p : Addr × Name).1.length = s.network_addr.length
  keys_valid : ∀ p ∈ s.lru_cache, validBytes (p : Addr × Name).1
  keys_lo : ∀ p ∈ s.lru_cache, bytesToNat s.network_addr ≤ bytesToNat (p : Addr × Name).1
  keys_hi : ∀ p ∈ s.lru_cache, bytesToNat (p : Addr × Name).1 ≤ bytesToNat s.broadcast_addr

/-- The number of cursor advances the probe loop still needs before its
`next_addr == started_at` wraparound check fires (assuming it keeps
finding occupied slots). -/
def distToStart (s : VirtualDns) (started : Addr) : Nat :=
  if bytesToNat s.next_addr - bytesToNat s.network_addr <
      bytesToNat started - bytesToNat s.network_addr then
    (bytesToNat started - bytesToNat s.network_addr) -
      (bytesToNat s.next_addr - bytesToNat s.network_addr)
  else
    poolSize s - ((bytesToNat s.next_addr - bytesToNat s.network_addr) -
      (bytesToNat started - bytesToNat s.network_addr))

/-! ### Arithmetic facts about addresses -/

lemma bytesToNat_lt_of_valid : ∀ a : Addr, validBytes a → bytesToNat a < 256 ^ a.length := by
  intro a
  induction a with
  | nil => intro _; simp [bytesToNat]
  | cons b rest ih =>
    intro h
    have hb : b < 256 := h b (List.mem_cons_self b rest)
    have hrest : validBytes rest := fun x hx => h x (List.mem_cons_of_mem _ hx)
    have h1 := ih hrest
    have h2 : (b + 1) * 256 ^ rest.length = b * 256 ^ rest.length + 256 ^ rest.length :=
      Nat.succ_mul b _
    have h3 : (b + 1) * 256 ^ rest.length ≤ 256 * 256 ^ rest.length :=
      Nat.mul_le_mul_right _ (by omega)
    have h4 : 256 ^ (rest.length + 1) = 256 * 256 ^ rest.length := by
      rw [pow_succ, Nat.mul_comm]
    simp only [bytesToNat, List.length_cons]
    omega

lemma incBytes_length : ∀ a : List Nat, (incBytes a).1.length = a.length := by
  intro a
  induction a with
  | nil => rfl
  | cons b rest ih =>
    rcases h : incBytes rest with ⟨rest1, c⟩
    rw [h] at ih
    cases c with
    | true =>
      by_cases hb : b = 255
      · simp [incBytes, h, hb, ih]
      · simp [incBytes, h, hb, ih]
    | false => simp [incBytes, h, ih]

lemma incBytes_spec : ∀ a : Addr, validBytes a →
    validBytes (incBytes a).1 ∧
    ((incBytes a).2 = true →
      bytesToNat a + 1 = 256 ^ a.length ∧ bytesToNat (incBytes a).1 = 0) ∧
    ((incBytes a).2 = false → bytesToNat (incBytes a).1 = bytesToNat a + 1) := by
  intro a
  induction a with
  | nil =>
    intro _
    refine ⟨fun x hx => absurd hx (List.not_mem_nil x), ?_, ?_⟩
    · intro _; simp [bytesToNat]
    · intro h; simp [incBytes] at h
  | cons b rest ih =>
    intro h
    have hb : b < 256 := h b (List.mem_cons_self b rest)
    have hrest : validBytes rest := fun x hx => h x (List.mem_cons_of_mem _ hx)
    obtain ⟨hv, hct, hcf⟩ := ih hrest
    have hlen : (incBytes rest).1.length = rest.length := incBytes_length rest
    rcases hr : incBytes rest with ⟨rest1, c⟩
    rw [hr] at hv hct hcf hlen
    dsimp only at hv hct hcf hlen
    cases c with
    | true =>
      obtain ⟨hsum, hzero⟩ := hct rfl
      by_cases hb255 : b = 255
      · subst hb255
        have : incBytes (255 :: rest) = (0 :: rest1, true) := by simp [incBytes, hr]
        rw [this]
        refine ⟨?_, ?_, ?_⟩
        · intro x hx
          rcases List.mem_cons.mp hx with h1 | h1
          · omega
          · exact hv x h1
        · intro _
          constructor
          · simp only [bytesToNat, List.length_cons]
            have : 256 ^ (rest.length + 1) = 256 * 256 ^ rest.length := by
              rw [pow_succ, Nat.mul_comm]
            omega
          · simp [bytesToNat, hzero]
        · intro hfx; simp at hfx
      · have : incBytes (b :: rest) = ((b + 1) :: rest1, false) := by simp [incBytes, hr, hb255]
        rw [this]
        refine ⟨?_, ?_, ?_⟩
        · intro x hx
          rcases List.mem_cons.mp hx with h1 | h1
          · omega
          · exact hv x h1
        · intro hfx; simp at hfx
        · intro _
          simp only [bytesToNat, hlen, List.length_cons]
          have : (b + 1) * 256 ^ rest.length = b * 256 ^ rest.length + 256 ^ rest.length :=
            Nat.succ_mul b _
          omega
    | false =>
      have hsum := hcf rfl
      have : incBytes (b :: rest) = (b :: rest1, false) := by simp [incBytes, hr]
      rw [this]
      refine ⟨?_, ?_, ?_⟩
      · intro x hx
        rcases List.mem_cons.mp hx with h1 | h1
        · omega
        · exact hv x h1
      · intro hfx; simp at hfx
      · intro _
        simp only [bytesToNat, hlen, List.length_cons]
        omega

lemma increment_ip_length (a : Addr) : (increment_ip a).length = a.length :=
  incBytes_length a

lemma increment_ip_valid (a : Addr) (h : validBytes a) : validBytes (increment_ip a) :=
  (incBytes_spec a h).1

lemma increment_ip_toNat (a : Addr) (h : validBytes a) :
    bytesToNat (increment_ip a) = (bytesToNat a + 1) % 256 ^ a.length := by
  obtain ⟨hv, hct, hcf⟩ := incBytes_spec a h
  cases hc : (incBytes a).2 with
  | true =>
    obtain ⟨hsum, hzero⟩ := hct hc
    unfold increment_ip
    rw [hzero, ← hsum, Nat.mod_self]
  | false =>
    have hsum := hcf hc
    have hbound : bytesToNat (incBytes a).1 < 256 ^ a.length := by
      have := bytesToNat_lt_of_valid (incBytes a).1 hv
      rwa [incBytes_length a] at this
    unfold increment_ip
    rw [hsum] at hbound ⊢
    rw [Nat.mod_eq_of_lt hbound]

lemma bytesToNat_eq_zero : ∀ a : Addr, bytesToNat a = 0 → a = List.replicate a.length 0 := by
  intro a
  induction a with
  | nil => intro _; rfl
  | cons b rest ih =>
    intro h
    simp only [bytesToNat] at h
    have hpow : 0 < 256 ^ rest.length := Nat.pos_pow_of_pos _ (by omega)
    have hb : b = 0 := by
      rcases Nat.eq_zero_or_pos b with h0 | h0
      · exact h0
      · exfalso
        have : 256 ^ rest.length ≤ b * 256 ^ rest.length := Nat.le_mul_of_pos_left _ h0
        omega
    have hrest : bytesToNat rest = 0 := by omega
    subst hb
    rw [List.length_cons, List.replicate_succ]
    exact congrArg (List.cons 0) (ih hrest)

lemma bytesToNat_allmax : ∀ a : Addr, (∀ b ∈ a, b = 255) →
    bytesToNat a + 1 = 256 ^ a.length := by
  intro a
  induction a with
  | nil => intro _; simp [bytesToNat]
  | cons b rest ih =>
    intro h
    have hb : b = 255 := h b (List.mem_cons_self b rest)
    have hrest := ih (fun x hx => h x (List.mem_cons_of_mem _ hx))
    simp only [bytesToNat, List.length_cons, hb]
    have : 256 ^ (rest.length + 1) = 256 * 256 ^ rest.length := by
      rw [pow_succ, Nat.mul_comm]
    omega

lemma increment_ip_allmax (a : Addr) (h : ∀ b ∈ a, b = 255) :
    increment_ip a = List.replicate a.length 0 := by
  have hvalid : validBytes a := fun x hx => by rw [h x hx]; omega
  have htop := bytesToNat_allmax a h
  have htoNat := increment_ip_toNat a hvalid
  rw [← htop, Nat.mod_self] at htoNat
  have := bytesToNat_eq_zero (increment_ip a) htoNat
  rwa [increment_ip_length a] at this

lemma addMul_lt {x y A B L : Nat} (hA : A < 256 ^ L) (hxy : x < y) :
    x * 256 ^ L + A < y * 256 ^ L + B := by
  have h1 : (x + 1) * 256 ^ L = x * 256 ^ L + 256 ^ L := Nat.succ_mul x _
  have h2 : (x + 1) * 256 ^ L ≤ y * 256 ^ L := Nat.mul_le_mul_right _ hxy
  omega

lemma ipLt_iff : ∀ a b : Addr, a.length = b.length → validBytes a → validBytes b →
    (ipLt a b = true ↔ bytesToNat a < bytesToNat b) := by
  intro a
  induction a with
  | nil =>
    intro b hlen _ _
    have : b = [] := List.eq_nil_of_length_eq_zero (by simpa using hlen.symm)
    subst this
    have h0 : ipLt ([] : Addr) [] = false := rfl
    have h1 : bytesToNat [] = 0 := rfl
    simp [h0, h1]
  | cons x as1 ih =>
    intro b hlen ha hb
    rcases b with _ | ⟨y, bs1⟩
    · simp at hlen
    · have hlen1 : as1.length = bs1.length := by simpa using hlen
      have hxa : x < 256 := ha x (List.mem_cons_self x as1)
      have hya : y < 256 := hb y (List.mem_cons_self y bs1)
      have hva : validBytes as1 := fun z hz => ha z (List.mem_cons_of_mem _ hz)
      have hvb : validBytes bs1 := fun z hz => hb z (List.mem_cons_of_mem _ hz)
      have hA := bytesToNat_lt_of_valid as1 hva
      have hB := bytesToNat_lt_of_valid bs1 hvb
      simp only [ipLt, bytesToNat]
      split_ifs with h1 h2
      · simp only [true_iff]
        rw [hlen1]
        exact addMul_lt (hlen1 ▸ hA) h1
      · subst h2
        rw [hlen1]
        constructor
        · intro h
          have := (ih bs1 hlen1 hva hvb).mp h
          omega
        · intro h
          apply (ih bs1 hlen1 hva hvb).mpr
          omega
      · have hyx : y < x := by omega
        simp only [false_iff, not_lt]
        have := addMul_lt (hB) hyx (B := bytesToNat as1)
        rw [hlen1]
        omega

lemma bytesToNat_inj : ∀ a b : Addr, a.length = b.length → validBytes a → validBytes b →
    bytesToNat a = bytesToNat b → a = b := by
  intro a
  induction a with
  | nil =>
    intro b hlen _ _ _
    exact (List.eq_nil_of_length_eq_zero (by simpa using hlen.symm)).symm
  | cons x as1 ih =>
    intro b hlen ha hb heq
    rcases b with _ | ⟨y, bs1⟩
    · simp at hlen
    · have hlen1 : as1.length = bs1.length := by simpa using hlen
      have hva : validBytes as1 := fun z hz => ha z (List.mem_cons_of_mem _ hz)
      have hvb : validBytes bs1 := fun z hz => hb z (List.mem_cons_of_mem _ hz)
      have hA := bytesToNat_lt_of_valid as1 hva
      have hB := bytesToNat_lt_of_valid bs1 hvb
      simp only [bytesToNat] at heq
      rw [hlen1] at heq hA
      have hxy : x = y := by
        by_contra hne
        rcases Nat.lt_or_ge x y with h1 | h1
        · have := addMul_lt hA h1 (B := bytesToNat bs1)
          omega
        · have h2 : y < x := by omega
          have := addMul_lt hB h2 (B := bytesToNat as1)
          omega
      subst hxy
      have : bytesToNat as1 = bytesToNat bs1 := by omega
      rw [ih bs1 hlen1 hva hvb this]

lemma ipLt_eq_false {a b : Addr} (hlen : a.length = b.length)
    (ha : validBytes a) (hb : validBytes b)
    (h : ¬ bytesToNat a < bytesToNat b) : ipLt a b = false := by
  rcases hab : ipLt a b with _ | _
  · rfl
  · exact absurd ((ipLt_iff a b hlen ha hb).mp hab) h

lemma advance_lt_spec (net bro a : Addr)
    (hbl : bro.length = net.length) (hal : a.length = net.length)
    (hnv : validBytes net) (hbv : validBytes bro) (hav : validBytes a)
    (hlo : bytesToNat net ≤ bytesToNat a)
    (hlt : bytesToNat a < bytesToNat bro) :
    bytesToNat (advance net bro a) = bytesToNat a + 1 ∧
    (advance net bro a).length = net.length ∧
    validBytes (advance net bro a) := by
  have hbroLt : bytesToNat bro < 256 ^ net.length := by
    have := bytesToNat_lt_of_valid bro hbv
    rwa [hbl] at this
  have hinc : bytesToNat (increment_ip a) = bytesToNat a + 1 := by
    rw [increment_ip_toNat a hav, hal]
    exact Nat.mod_eq_of_lt (by omega)
  have hincl : (increment_ip a).length = net.length := by
    rw [increment_ip_length a, hal]
  have hincv : validBytes (increment_ip a) := increment_ip_valid a hav
  have h1 : ipLt bro (increment_ip a) = false :=
    ipLt_eq_false (by rw [hincl, hbl]) hbv hincv (by omega)
  have h2 : ipLt (increment_ip a) net = false :=
    ipLt_eq_false (by rw [hincl]) hincv hnv (by omega)
  unfold advance wrapInRange
  rw [h1, h2]
  simp [hinc, hincl, hincv]

lemma advance_top_spec (net bro a : Addr)
    (hbl : bro.length = net.length) (hal : a.length = net.length)
    (hnv : validBytes net) (hbv : validBytes bro) (hav : validBytes a)
    (hnb : bytesToNat net ≤ bytesToNat bro)
    (heq : bytesToNat a = bytesToNat bro) :
    advance net bro a = net := by
  have hbroLt : bytesToNat bro < 256 ^ net.length := by
    have := bytesToNat_lt_of_valid bro hbv
    rwa [hbl] at this
  have hincl : (increment_ip a).length = net.length := by
    rw [increment_ip_length a, hal]
  have hincv : validBytes (increment_ip a) := increment_ip_valid a hav
  have hinc : bytesToNat (increment_ip a) = (bytesToNat bro + 1) % 256 ^ net.length := by
    rw [increment_ip_toNat a hav, hal, heq]
  rcases Nat.lt_or_ge (bytesToNat bro + 1) (256 ^ net.length) with hcase | hcase
  · have hincv2 : bytesToNat (increment_ip a) = bytesToNat bro + 1 := by
      rw [hinc, Nat.mod_eq_of_lt hcase]
    have h1 : ipLt bro (increment_ip a) = true := by
      apply (ipLt_iff bro (increment_ip a) (by rw [hincl, hbl]) hbv hincv).mpr
      omega
    unfold advance wrapInRange
    rw [h1]
    simp
  · have h256 : bytesToNat bro + 1 = 256 ^ net.length := by omega
    have hincv2 : bytesToNat (increment_ip a) = 0 := by
      rw [hinc, h256, Nat.mod_self]
    have h1 : ipLt bro (increment_ip a) = false :=
      ipLt_eq_false (by rw [hincl, hbl]) hbv hincv (by omega)
    rcases Nat.eq_zero_or_pos (bytesToNat net) with hz | hz
    · have h2 : ipLt (increment_ip a) net = false :=
        ipLt_eq_false (by rw [hincl]) hincv hnv (by omega)
      unfold advance wrapInRange
      rw [h1, h2]
      simp only [Bool.or_self, Bool.false_eq_true, if_false]
      exact bytesToNat_inj _ _ hincl hincv hnv (by omega)
    · have h2 : ipLt (increment_ip a) net = true := by
        apply (ipLt_iff (increment_ip a) net (by rw [hincl]) hincv hnv).mpr
        omega
      unfold advance wrapInRange
      rw [h1, h2]
      simp

lemma advance_in_range (net bro a : Addr)
    (hbl : bro.length = net.length) (hal : a.length = net.length)
    (hnv : validBytes net) (hbv : validBytes bro) (hav : validBytes a)
    (hnb : bytesToNat net ≤ bytesToNat bro)
    (hlo : bytesToNat net ≤ bytesToNat a) (hhi : bytesToNat a ≤ bytesToNat bro) :
    (advance net bro a).length = net.length ∧ validBytes (advance net bro a) ∧
    bytesToNat net ≤ bytesToNat (advance net bro a) ∧
    bytesToNat (advance net bro a) ≤ bytesToNat bro := by
  rcases Nat.lt_or_ge (bytesToNat a) (bytesToNat bro) with hlt | hge
  · obtain ⟨h1, h2, h3⟩ := advance_lt_spec net bro a hbl hal hnv hbv hav hlo hlt
    exact ⟨h2, h3, by omega, by omega⟩
  · have heq : bytesToNat a = bytesToNat bro := by omega
    rw [advance_top_spec net bro a hbl hal hnv hbv hav hnb heq]
    exact ⟨rfl, hnv, Nat.le_refl _, hnb⟩

/-! ### Association-list and LRU-list facts -/

lemma find?_key_none {α β : Type} [DecidableEq α] (l : List (α × β)) (x : α)
    (h : ∀ p ∈ l, p.1 ≠ x) :
    l.find? (fun p => decide (p.1 = x)) = none :=
  List.find?_eq_none.mpr (fun p hp => by simpa using h p hp)

lemma find?_key_unique {α β : Type} [DecidableEq α] :
    ∀ (l : List (α × β)) (x : α) (y : β), (l.map Prod.fst).Nodup → (x, y) ∈ l →
    l.find? (fun p => decide (p.1 = x)) = some (x, y) := by
  intro l
  induction l with
  | nil => intro x y _ hmem; exact absurd hmem (List.not_mem_nil _)
  | cons q l ih =>
    intro x y hnd hmem
    have hnd1 : (l.map Prod.fst).Nodup := (List.nodup_cons.mp hnd).2
    have hq1 : q.1 ∉ l.map Prod.fst := (List.nodup_cons.mp hnd).1
    by_cases hqx : q.1 = x
    · have hqy : q = (x, y) := by
        rcases List.mem_cons.mp hmem with h | h
        · exact h.symm
        · exfalso
          apply hq1
          rw [hqx]
          exact List.mem_map.mpr ⟨(x, y), h, rfl⟩
      subst hqy
      simp [List.find?]
    · have hmem1 : (x, y) ∈ l := by
        rcases List.mem_cons.mp hmem with h | h
        · exact absurd (congrArg Prod.fst h.symm) hqx
        · exact h
      have := ih x y hnd1 hmem1
      simpa [List.find?, hqx] using this

lemma filter_key_single {α β : Type} [DecidableEq α] :
    ∀ (l : List (α × β)) (x : α) (y : β), (l.map Prod.fst).Nodup → (x, y) ∈ l →
    l.filter (fun p => decide (p.1 = x)) = [(x, y)] := by
  intro l
  induction l with
  | nil => intro x y _ hmem; exact absurd hmem (List.not_mem_nil _)
  | cons q l ih =>
    intro x y hnd hmem
    have hnd1 : (l.map Prod.fst).Nodup := (List.nodup_cons.mp hnd).2
    have hq1 : q.1 ∉ l.map Prod.fst := (List.nodup_cons.mp hnd).1
    by_cases hqx : q.1 = x
    · have hqy : q = (x, y) := by
        rcases List.mem_cons.mp hmem with h | h
        · exact h.symm
        · exfalso
          apply hq1
          rw [hqx]
          exact List.mem_map.mpr ⟨(x, y), h, rfl⟩
      subst hqy
      have hnone : l.filter (fun p => decide (p.1 = x)) = [] := by
        apply List.filter_eq_nil_iff.mpr
        intro p hp
        simp only [decide_eq_true_eq]
        intro hpx
        exact hq1 (List.mem_map.mpr ⟨p, hp, hpx⟩)
      simp [List.filter, hnone]
    · have hmem1 : (x, y) ∈ l := by
        rcases List.mem_cons.mp hmem with h | h
        · exact absurd (congrArg Prod.fst h.symm) hqx
        · exact h
      have := ih x y hnd1 hmem1
      simpa [List.filter, hqx] using this

lemma filter_not_key {α β : Type} [DecidableEq α] (l : List (α × β)) (x : α)
    (h : ∀ p ∈ l, p.1 ≠ x) :
    l.filter (fun p => ! decide (p.1 = x)) = l :=
  List.filter_eq_self.mpr (fun p hp => by simpa using h p hp)

lemma mem_of_mem_filter_key {α β : Type} [DecidableEq α] {l : List (α × β)} {x : α}
    {q : α × β} (h : q ∈ l.filter (fun p => ! decide (p.1 = x))) :
    q ∈ l ∧ q.1 ≠ x := by
  have := List.mem_filter.mp h
  refine ⟨this.1, ?_⟩
  simpa using this.2

lemma nodup_fst_filter {α β : Type} (l : List (α × β)) (q : α × β → Bool)
    (h : (l.map Prod.fst).Nodup) : ((l.filter q).map Prod.fst).Nodup :=
  List.Nodup.sublist (List.Sublist.map Prod.fst (List.filter_sublist l)) h

lemma nodup_snd_filter {α β : Type} (l : List (α × β)) (q : α × β → Bool)
    (h : (l.map Prod.snd).Nodup) : ((l.filter q).map Prod.snd).Nodup :=
  List.Nodup.sublist (List.Sublist.map Prod.snd (List.filter_sublist l)) h

lemma lruTouch_perm (c : List (Addr × Name)) (a : Addr)
    (hnd : (c.map Prod.fst).Nodup) : (lruTouch c a).Perm c := by
  unfold lruTouch lruFind
  rcases hf : c.find? (fun p => decide (p.1 = a)) with _ | p
  · rw [hf]
  · rw [hf]
    have hpa : p.1 = a := by simpa using List.find?_some hf
    have hpm : p ∈ c := List.mem_of_find?_eq_some hf
    have hsingle : c.filter (fun q => decide (q.1 = a)) = [p] := by
      have h1 : (p.1, p.2) ∈ c := by simpa using hpm
      rw [← hpa]
      have := filter_key_single c p.1 p.2 hnd h1
      simpa using this
    have hperm := List.filter_append_perm (fun q => ! decide (q.1 = a)) c
    have hcong : c.filter (fun q => !! decide (q.1 = a)) = c.filter (fun q => decide (q.1 = a)) :=
      List.filter_congr (fun q _ => Bool.not_not _)
    rw [hcong, hsingle] at hperm
    exact hperm

lemma lruTouch_subset {c : List (Addr × Name)} {a : Addr} {q : Addr × Name}
    (h : q ∈ lruTouch c a) : q ∈ c := by
  unfold lruTouch lruFind at h
  rcases hf : c.find? (fun p => decide (p.1 = a)) with _ | p
  · rwa [hf] at h
  · rw [hf] at h
    rcases List.mem_append.mp h with h1 | h1
    · exact (List.mem_filter.mp h1).1
    · have : q = p := by simpa using h1
      rw [this]
      exact List.mem_of_find?_eq_some hf

lemma lruInsert_subset {c : List (Addr × Name)} {a : Addr} {n : Name}
    {q : Addr × Name} (h : q ∈ lruInsert c a n) : q ∈ c ∨ q = (a, n) := by
  unfold lruInsert at h
  rcases List.mem_append.mp h with h1 | h1
  · exact Or.inl (List.mem_filter.mp h1).1
  · exact Or.inr (by simpa using h1)

lemma find?_filter_agree {α : Type} (l : List α) (p q : α → Bool)
    (h : ∀ x, p x = true → q x = true) : (l.filter q).find? p = l.find? p := by
  induction l with
  | nil => rfl
  | cons x l ih =>
    by_cases hq : q x = true
    · rw [List.filter_cons_of_pos hq]
      by_cases hp : p x = true
      · rw [List.find?_cons_of_pos _ hp, List.find?_cons_of_pos _ hp]
      · rw [List.find?_cons_of_neg _ hp, List.find?_cons_of_neg _ hp, ih]
    · have hp : ¬ p x = true := fun hpx => hq (h x hpx)
      rw [List.filter_cons_of_neg hq, List.find?_cons_of_neg _ hp, ih]

lemma mapLookup_none_keys {m : List (Name × Addr)} {n : Name}
    (h : mapLookup m n = none) : ∀ p ∈ m, p.1 ≠ n := by
  unfold mapLookup at h
  rcases hf : m.find? (fun p => decide (p.1 = n)) with _ | p
  · intro p hp
    have := List.find?_eq_none.mp hf p hp
    simpa using this
  · rw [hf] at h
    simp at h

lemma mapLookup_mem {m : List (Name × Addr)} {n : Name} {a : Addr}
    (h : mapLookup m n = some a) : (n, a) ∈ m := by
  unfold mapLookup at h
  rcases hf : m.find? (fun p => decide (p.1 = n)) with _ | p
  · rw [hf] at h
    simp at h
  · rw [hf] at h
    obtain ⟨p1, p2⟩ := p
    have hp1 : p1 = n := by simpa using List.find?_some hf
    have hp2 : p2 = a := by simpa using h
    have := List.mem_of_find?_eq_some hf
    rw [hp1, hp2] at this
    exact this

lemma mapRemove_keys (m : List (Name × Addr)) (n : Name) :
    ∀ p ∈ mapRemove m n, p.1 ≠ n := by
  intro p hp
  exact (mem_of_mem_filter_key (show p ∈ m.filter (fun q => ! decide (q.1 = n)) from hp)).2

lemma mapLookup_mapRemove_self (m : List (Name × Addr)) (n : Name) :
    mapLookup (mapRemove m n) n = none := by
  unfold mapLookup
  rw [find?_key_none _ _ (mapRemove_keys m n)]
  rfl

lemma mapLookup_mapRemove_ne (m : List (Name × Addr)) (n n2 : Name) (h : n2 ≠ n) :
    mapLookup (mapRemove m n) n2 = mapLookup m n2 := by
  unfold mapLookup mapRemove
  rw [find?_filter_agree]
  intro p hp
  simp only [decide_eq_true_eq] at hp
  simp [hp, h]

lemma mapLookup_mapInsert_self (m : List (Name × Addr)) (n : Name) (a : Addr) :
    mapLookup (mapInsert m n a) n = some a := by
  unfold mapLookup mapInsert
  rw [List.find?_append]
  rw [show (mapRemove m n).find? (fun p => decide (p.1 = n)) = none from
    find?_key_none _ _ (mapRemove_keys m n)]
  rw [Option.none_or]
  rw [List.find?_cons_of_pos _ (by simp)]
  rfl

lemma mapLookup_mapInsert_ne (m : List (Name × Addr)) (n n2 : Name) (a : Addr)
    (h : n2 ≠ n) : mapLookup (mapInsert m n a) n2 = mapLookup m n2 := by
  unfold mapLookup mapInsert
  rw [List.find?_append]
  have h1 : [(n, a)].find? (fun p => decide (p.1 = n2)) = none := by
    apply List.find?_eq_none.mpr
    intro x hx
    have : x = (n, a) := by simpa using hx
    subst this
    simp [Ne.symm h]
  rw [h1, Option.or_none]
  unfold mapRemove
  rw [find?_filter_agree]
  intro p hp
  simp only [decide_eq_true_eq] at hp
  simp [hp, h]

lemma mem_mapRemove {m : List (Name × Addr)} {n : Name} {q : Name × Addr} :
    q ∈ mapRemove m n ↔ q ∈ m ∧ q.1 ≠ n := by
  unfold mapRemove
  rw [List.mem_filter]
  simp

lemma mem_mapInsert {m : List (Name × Addr)} {n : Name} {a : Addr} {q : Name × Addr} :
    q ∈ mapInsert m n a ↔ (q ∈ m ∧ q.1 ≠ n) ∨ q = (n, a) := by
  unfold mapInsert
  rw [List.mem_append, mem_mapRemove]
  simp

lemma mem_lruInsert {c : List (Addr × Name)} {a : Addr} {nm : Name} {q : Addr × Name} :
    q ∈ lruInsert c a nm ↔ (q ∈ c ∧ q.1 ≠ a) ∨ q = (a, nm) := by
  unfold lruInsert
  rw [List.mem_append, List.mem_filter]
  simp

lemma nodup_keys_mapRemove {m : List (Name × Addr)} {n : Name}
    (h : (m.map Prod.fst).Nodup) : ((mapRemove m n).map Prod.fst).Nodup :=
  nodup_fst_filter m _ h

lemma nodup_keys_mapInsert {m : List (Name × Addr)} {n : Name} {a : Addr}
    (h : (m.map Prod.fst).Nodup) : ((mapInsert m n a).map Prod.fst).Nodup := by
  unfold mapInsert
  rw [List.map_append, List.nodup_append]
  refine ⟨nodup_keys_mapRemove h, by simp, ?_⟩
  intro x hx hx2
  simp only [List.map_cons, List.map_nil, List.mem_singleton] at hx2
  rcases List.mem_map.mp hx with ⟨p, hp, hpx⟩
  have := (mem_of_mem_filter_key hp).2
  rw [hpx, hx2] at this
  exact this rfl

lemma lruInsert_fresh {c : List (Addr × Name)} {a : Addr} {nm : Name}
    (h : ∀ p ∈ c, p.1 ≠ a) : lruInsert c a nm = c ++ [(a, nm)] := by
  unfold lruInsert
  rw [filter_not_key c a h]

lemma mapInsert_fresh {m : List (Name × Addr)} {n : Name} {a : Addr}
    (h : ∀ p ∈ m, p.1 ≠ n) : mapInsert m n a = m ++ [(n, a)] := by
  unfold mapInsert mapRemove
  rw [filter_not_key m n h]

lemma keys_ne_of_nodup_cons {x : Addr} {y : Name} {rest : List (Addr × Name)}
    (hnd : (((x, y) :: rest).map Prod.fst).Nodup) : ∀ p ∈ rest, p.1 ≠ x := by
  intro p hp he
  rw [List.map_cons] at hnd
  have hx : x ∉ rest.map Prod.fst := (List.nodup_cons.mp hnd).1
  exact hx (List.mem_map.mpr ⟨p, hp, he⟩)

lemma names_ne_of_nodup_cons {x : Addr} {y : Name} {rest : List (Addr × Name)}
    (hnd : (((x, y) :: rest).map Prod.snd).Nodup) : ∀ p ∈ rest, p.2 ≠ y := by
  intro p hp he
  rw [List.map_cons] at hnd
  have hy : y ∉ rest.map Prod.snd := (List.nodup_cons.mp hnd).1
  exact hy (List.mem_map.mpr ⟨p, hp, he⟩)

/-! ### Preservation of the bijection/capacity invariant -/

lemma InvT.touch {c : List (Addr × Name)} {m : List (Name × Addr)} {cap : Nat}
    (h : InvT c m cap) (a : Addr) : InvT (lruTouch c a) m cap := by
  have hperm := lruTouch_perm c a h.addr_nodup
  refine ⟨?_, ?_, ?_, h.key_nodup, ?_⟩
  · intro x n
    rw [hperm.mem_iff]
    exact h.bij x n
  · exact ((hperm.map Prod.fst).nodup_iff).mpr h.addr_nodup
  · exact ((hperm.map Prod.snd).nodup_iff).mpr h.name_nodup
  · intro hc
    rw [hperm.length_eq]
    exact h.cap_bound hc

lemma InvT.evict {c : List (Addr × Name)} {m : List (Name × Addr)} {cap : Nat}
    {old_ip : Addr} {old_name : Name} {rest : List (Addr × Name)} {nm : Name}
    (h : InvT c m cap) (hc : c = (old_ip, old_name) :: rest)
    (hnm : mapLookup m nm = none) :
    InvT (lruInsert rest old_ip nm) (mapInsert (mapRemove m old_name) nm old_ip) cap := by
  subst hc
  have hrest_keys : ∀ p ∈ rest, p.1 ≠ old_ip := keys_ne_of_nodup_cons h.addr_nodup
  have hrest_names : ∀ p ∈ rest, p.2 ≠ old_name := names_ne_of_nodup_cons h.name_nodup
  have hnm_keys : ∀ p ∈ m, p.1 ≠ nm := mapLookup_none_keys hnm
  have hlru : lruInsert rest old_ip nm = rest ++ [(old_ip, nm)] :=
    lruInsert_fresh hrest_keys
  have hmap : mapInsert (mapRemove m old_name) nm old_ip
      = mapRemove m old_name ++ [(nm, old_ip)] :=
    mapInsert_fresh (fun p hp => hnm_keys p (mem_mapRemove.mp hp).1)
  have hrest_iff : ∀ a n, (a, n) ∈ rest ↔ ((n, a) ∈ m ∧ n ≠ old_name) := by
    intro a n
    constructor
    · intro hmem
      refine ⟨(h.bij a n).mp (List.mem_cons_of_mem _ hmem), ?_⟩
      exact hrest_names (a, n) hmem
    · rintro ⟨hm, hne⟩
      rcases List.mem_cons.mp ((h.bij a n).mpr hm) with heq | hmem
      · exact absurd (congrArg Prod.snd heq) hne
      · exact hmem
  have hold_ip_notin : old_ip ∉ rest.map Prod.fst := by
    have := h.addr_nodup
    rw [List.map_cons] at this
    exact (List.nodup_cons.mp this).1
  have hrest_fst_nodup : (rest.map Prod.fst).Nodup := by
    have := h.addr_nodup
    rw [List.map_cons] at this
    exact (List.nodup_cons.mp this).2
  have hrest_snd_nodup : (rest.map Prod.snd).Nodup := by
    have := h.name_nodup
    rw [List.map_cons] at this
    exact (List.nodup_cons.mp this).2
  refine ⟨?_, ?_, ?_, ?_, ?_⟩
  · intro a n
    rw [hlru, hmap, List.mem_append, List.mem_append, hrest_iff a n, mem_mapRemove]
    constructor
    · rintro (⟨hm, hne⟩ | heq)
      · exact Or.inl ⟨hm, hne⟩
      · right
        obtain ⟨h1, h2⟩ : a = old_ip ∧ n = nm := by simpa using heq
        simp [h1, h2]
    · rintro (⟨hm, hne⟩ | heq)
      · exact Or.inl ⟨hm, hne⟩
      · right
        obtain ⟨h1, h2⟩ : n = nm ∧ a = old_ip := by simpa using heq
        simp [h1, h2]
  · rw [hlru, List.map_append, List.nodup_append]
    refine ⟨hrest_fst_nodup, by simp, ?_⟩
    simp only [List.map_cons, List.map_nil, List.disjoint_singleton]
    exact hold_ip_notin
  · rw [hlru, List.map_append, List.nodup_append]
    refine ⟨hrest_snd_nodup, by simp, ?_⟩
    simp only [List.map_cons, List.map_nil, List.disjoint_singleton]
    intro hmem
    rcases List.mem_map.mp hmem with ⟨p, hp, hpn⟩
    have := (hrest_iff p.1 p.2).mp (by simpa using hp)
    exact hnm_keys (p.2, p.1) this.1 (by simpa using hpn)
  · rw [hmap, List.map_append, List.nodup_append]
    refine ⟨nodup_keys_mapRemove h.key_nodup, by simp, ?_⟩
    simp only [List.map_cons, List.map_nil, List.disjoint_singleton]
    intro hmem
    rcases List.mem_map.mp hmem with ⟨p, hp, hpn⟩
    exact hnm_keys p (mem_mapRemove.mp hp).1 hpn
  · intro hcap
    rw [hlru, List.length_append]
    have := h.cap_bound hcap
    simp only [List.length_cons] at this
    simp only [List.length_cons, List.length_nil]
    omega

lemma InvT.insertFresh {c : List (Addr × Name)} {m : List (Name × Addr)} {cap : Nat}
    {a : Addr} {nm : Name}
    (h : InvT c m cap) (ha : lruContains c a = false)
    (hnm : mapLookup m nm = none)
    (hlen : 1 ≤ cap → c.length < cap) :
    InvT (lruInsert c a nm) (mapInsert m nm a) cap := by
  have hfind : c.find? (fun q => decide (q.1 = a)) = none := by
    unfold lruContains lruFind at ha
    rcases hf : c.find? (fun q => decide (q.1 = a)) with _ | p
    · exact hf
    · rw [hf] at ha
      simp at ha
  have hc_keys : ∀ p ∈ c, p.1 ≠ a := by
    intro p hp
    have := List.find?_eq_none.mp hfind p hp
    simpa using this
  have hnm_keys : ∀ p ∈ m, p.1 ≠ nm := mapLookup_none_keys hnm
  have hlru : lruInsert c a nm = c ++ [(a, nm)] := lruInsert_fresh hc_keys
  have hmap : mapInsert m nm a = m ++ [(nm, a)] := mapInsert_fresh hnm_keys
  refine ⟨?_, ?_, ?_, ?_, ?_⟩
  · intro x n
    rw [hlru, hmap, List.mem_append, List.mem_append]
    constructor
    · rintro (hm | heq)
      · exact Or.inl ((h.bij x n).mp hm)
      · right
        obtain ⟨h1, h2⟩ : x = a ∧ n = nm := by simpa using heq
        simp [h1, h2]
    · rintro (hm | heq)
      · exact Or.inl ((h.bij x n).mpr hm)
      · right
        obtain ⟨h1, h2⟩ : n = nm ∧ x = a := by simpa using heq
        simp [h1, h2]
  · rw [hlru, List.map_append, List.nodup_append]
    refine ⟨h.addr_nodup, by simp, ?_⟩
    simp only [List.map_cons, List.map_nil, List.disjoint_singleton]
    intro hmem
    rcases List.mem_map.mp hmem with ⟨p, hp, hpn⟩
    exact hc_keys p hp hpn
  · rw [hlru, List.map_append, List.nodup_append]
    refine ⟨h.name_nodup, by simp, ?_⟩
    simp only [List.map_cons, List.map_nil, List.disjoint_singleton]
    intro hmem
    rcases List.mem_map.mp hmem with ⟨p, hp, hpn⟩
    have := (h.bij p.1 p.2).mp (by simpa using hp)
    exact hnm_keys (p.2, p.1) this (by simpa using hpn)
  · rw [hmap, List.map_append, List.nodup_append]
    refine ⟨h.key_nodup, by simp, ?_⟩
    simp only [List.map_cons, List.map_nil, List.disjoint_singleton]
    intro hmem
    rcases List.mem_map.mp hmem with ⟨p, hp, hpn⟩
    exact hnm_keys p hp hpn
  · intro hcap
    rw [hlru, List.length_append]
    have := hlen hcap
    simp only [List.length_cons, List.length_nil]
    omega

lemma Inv.touchOp {s : VirtualDns} (h : Inv s) (a : Addr) : Inv (touch_ip s a) :=
  InvT.touch h a

lemma Inv.resolveOp {s : VirtualDns} (h : Inv s) (a : Addr) : Inv ((resolve_ip s a).2) :=
  InvT.touch h a

lemma findLoop_inv (nm : Name) (started : Addr) :
    ∀ (fuel : Nat) (s : VirtualDns), Inv s → mapLookup s.name_to_ip nm = none →
    (1 ≤ s.capacity → s.lru_cache.length < s.capacity) →
    Inv (findLoop nm started fuel s).2 := by
  intro fuel
  induction fuel with
  | zero =>
    intro s h _ _
    exact h
  | succ fuel ih =>
    intro s h hnm hlen
    unfold findLoop
    by_cases hocc : lruContains s.lru_cache s.next_addr = true
    · simp only [hocc, if_true]
      by_cases hwrap : advance s.network_addr s.broadcast_addr s.next_addr = started
      · simp only [hwrap, if_true]
        rcases hcache : s.lru_cache with _ | ⟨⟨old_ip, old_name⟩, rest⟩
        · simp only [hcache]
          show InvT [] s.name_to_ip s.capacity
          rw [← hcache]
          exact h
        · simp only [hcache]
          exact InvT.evict h hcache hnm
      · simp only [hwrap, if_false]
        exact ih _ h hnm hlen
    · simp only [Bool.not_eq_true] at hocc
      simp only [hocc, Bool.false_eq_true, if_false]
      exact InvT.insertFresh h hocc hnm hlen

lemma Inv.find {s : VirtualDns} (h : Inv s) (name : Name) :
    Inv (find_or_allocate_ip s name).2 := by
  unfold find_or_allocate_ip
  rcases hl : mapLookup s.name_to_ip (canonicalize s.trailing_dot name) with _ | ip
  · simp only [hl]
    by_cases hfull : s.lru_cache.length = s.capacity
    · rw [if_pos hfull]
      rcases hcache : s.lru_cache with _ | ⟨⟨old_ip, old_name⟩, rest⟩
      · simp only [hcache]
        apply findLoop_inv _ _ _ _ h hl
        intro hc
        rw [hcache] at hfull
        simp only [List.length_nil] at hfull
        omega
      · simp only [hcache]
        exact InvT.evict h hcache hl
    · rw [if_neg hfull]
      apply findLoop_inv _ _ _ _ h hl
      intro hc
      have := h.cap_bound hc
      omega
  · simp only [hl]
    exact InvT.touch h ip

lemma Inv.stepOp {s : VirtualDns} (h : Inv s) (op : Op) : Inv (step s op) := by
  cases op with
  | findOp n => exact Inv.find h n
  | touchOp a => exact Inv.touchOp h a
  | resolveOp a => exact Inv.resolveOp h a

lemma Inv.runOps {s : VirtualDns} (h : Inv s) (ops : List Op) : Inv (run s ops) := by
  induction ops generalizing s with
  | nil => exact h
  | cons op ops ih =>
    unfold run
    rw [List.foldl_cons]
    exact ih (Inv.stepOp h op)

lemma Inv_new (net bro : Addr) : Inv (new net bro) := by
  refine ⟨?_, ?_, ?_, ?_, ?_⟩ <;> simp [new]

/-! ### Configuration fields never change -/

lemma findLoop_config (nm : Name) (started : Addr) :
    ∀ (fuel : Nat) (s : VirtualDns),
    (findLoop nm started fuel s).2.trailing_dot = s.trailing_dot ∧
    (findLoop nm started fuel s).2.capacity = s.capacity ∧
    (findLoop nm started fuel s).2.network_addr = s.network_addr ∧
    (findLoop nm started fuel s).2.broadcast_addr = s.broadcast_addr := by
  intro fuel
  induction fuel with
  | zero => intro s; refine ⟨?_, ?_, ?_, ?_⟩ <;> first | rfl | trivial
  | succ fuel ih =>
    intro s
    unfold findLoop
    by_cases hocc : lruContains s.lru_cache s.next_addr = true
    · simp only [hocc, if_true]
      by_cases hwrap : advance s.network_addr s.broadcast_addr s.next_addr = started
      · simp only [hwrap, if_true]
        rcases hcache : s.lru_cache with _ | ⟨⟨old_ip, old_name⟩, rest⟩
        · simp only [hcache]
          refine ⟨?_, ?_, ?_, ?_⟩ <;> first | rfl | trivial
        · simp only [hcache]
          refine ⟨?_, ?_, ?_, ?_⟩ <;> first | rfl | trivial
      · simp only [hwrap, if_false]
        exact ih _
    · simp only [Bool.not_eq_true] at hocc
      simp only [hocc, Bool.false_eq_true, if_false]
      refine ⟨?_, ?_, ?_, ?_⟩ <;> first | rfl | trivial

lemma find_config (s : VirtualDns) (name : Name) :
    (find_or_allocate_ip s name).2.trailing_dot = s.trailing_dot ∧
    (find_or_allocate_ip s name).2.capacity = s.capacity ∧
    (find_or_allocate_ip s name).2.network_addr = s.network_addr ∧
    (find_or_allocate_ip s name).2.broadcast_addr = s.broadcast_addr := by
  unfold find_or_allocate_ip
  rcases hl : mapLookup s.name_to_ip (canonicalize s.trailing_dot name) with _ | ip
  · simp only [hl]
    by_cases hfull : s.lru_cache.length = s.capacity
    · rw [if_pos hfull]
      rcases hcache : s.lru_cache with _ | ⟨⟨old_ip, old_name⟩, rest⟩
      · simp only [hcache]
        exact findLoop_config _ _ _ _
      · simp only [hcache]
        refine ⟨?_, ?_, ?_, ?_⟩ <;> first | rfl | trivial
    · rw [if_neg hfull]
      exact findLoop_config _ _ _ _
  · simp only [hl]
    refine ⟨?_, ?_, ?_, ?_⟩ <;> first | rfl | trivial

lemma step_config (s : VirtualDns) (op : Op) :
    (step s op).trailing_dot = s.trailing_dot ∧
    (step s op).capacity = s.capacity ∧
    (step s op).network_addr = s.network_addr ∧
    (step s op).broadcast_addr = s.broadcast_addr := by
  cases op with
  | findOp n => exact find_config s n
  | touchOp a => refine ⟨?_, ?_, ?_, ?_⟩ <;> first | rfl | trivial
  | resolveOp a => refine ⟨?_, ?_, ?_, ?_⟩ <;> first | rfl | trivial

lemma run_config (ops : List Op) : ∀ s : VirtualDns,
    (run s ops).trailing_dot = s.trailing_dot ∧
    (run s ops).capacity = s.capacity ∧
    (run s ops).network_addr = s.network_addr ∧
    (run s ops).broadcast_addr = s.broadcast_addr := by
  induction ops with
  | nil => intro s; refine ⟨?_, ?_, ?_, ?_⟩ <;> first | rfl | trivial
  | cons op ops ih =>
    intro s
    unfold run
    rw [List.foldl_cons]
    obtain ⟨h1, h2, h3, h4⟩ := ih (step s op)
    obtain ⟨g1, g2, g3, g4⟩ := step_config s op
    unfold run at h1 h2 h3 h4
    exact ⟨h1.trans g1, h2.trans g2, h3.trans g3, h4.trans g4⟩

/-! ### Preservation of pool geometry -/

lemma Geo.touch_geo {s : VirtualDns} (h : Geo s) (a : Addr) : Geo (touch_ip s a) := by
  refine ⟨h.bro_len, h.net_valid, h.bro_valid, h.net_le_bro, h.next_len, h.next_valid,
    h.next_lo, h.next_hi, ?_, ?_, ?_, ?_⟩
  · intro p hp
    exact h.keys_len p (lruTouch_subset hp)
  · intro p hp
    exact h.keys_valid p (lruTouch_subset hp)
  · intro p hp
    exact h.keys_lo p (lruTouch_subset hp)
  · intro p hp
    exact h.keys_hi p (lruTouch_subset hp)

lemma Geo.advanceNext {s : VirtualDns} (h : Geo s) :
    Geo { s with next_addr := advance s.network_addr s.broadcast_addr s.next_addr } := by
  obtain ⟨a1, a2, a3, a4⟩ := advance_in_range s.network_addr s.broadcast_addr s.next_addr
    h.bro_len h.next_len h.net_valid h.bro_valid h.next_valid h.net_le_bro h.next_lo h.next_hi
  exact ⟨h.bro_len, h.net_valid, h.bro_valid, h.net_le_bro, a1, a2, a3, a4,
    h.keys_len, h.keys_valid, h.keys_lo, h.keys_hi⟩

lemma Geo.evict_geo {s : VirtualDns} {old_ip : Addr} {old_name : Name}
    {rest : List (Addr × Name)} (h : Geo s) (nm : Name)
    (hc : s.lru_cache = (old_ip, old_name) :: rest) :
    Geo (evictState s rest old_ip old_name nm) := by
  have hmem : (old_ip, old_name) ∈ s.lru_cache := by
    rw [hc]
    exact List.mem_cons_self _ _
  have hol : old_ip.length = s.network_addr.length := h.keys_len _ hmem
  have hov : validBytes old_ip := h.keys_valid _ hmem
  have holo : bytesToNat s.network_addr ≤ bytesToNat old_ip := h.keys_lo _ hmem
  have hohi : bytesToNat old_ip ≤ bytesToNat s.broadcast_addr := h.keys_hi _ hmem
  obtain ⟨a1, a2, a3, a4⟩ := advance_in_range s.network_addr s.broadcast_addr old_ip
    h.bro_len hol h.net_valid h.bro_valid hov h.net_le_bro holo hohi
  refine ⟨h.bro_len, h.net_valid, h.bro_valid, h.net_le_bro, a1, a2, a3, a4, ?_, ?_, ?_, ?_⟩
  · intro p hp
    rcases lruInsert_subset hp with h1 | h1
    · exact h.keys_len p (by rw [hc]; exact List.mem_cons_of_mem _ h1)
    · rw [h1]; exact hol
  · intro p hp
    rcases lruInsert_subset hp with h1 | h1
    · exact h.keys_valid p (by rw [hc]; exact List.mem_cons_of_mem _ h1)
    · rw [h1]; exact hov
  · intro p hp
    rcases lruInsert_subset hp with h1 | h1
    · exact h.keys_lo p (by rw [hc]; exact List.mem_cons_of_mem _ h1)
    · rw [h1]; exact holo
  · intro p hp
    rcases lruInsert_subset hp with h1 | h1
    · exact h.keys_hi p (by rw [hc]; exact List.mem_cons_of_mem _ h1)
    · rw [h1]; exact hohi

lemma Geo.insertNext {s : VirtualDns} (h : Geo s) (nm : Name) :
    Geo { s with
      lru_cache := lruInsert s.lru_cache s.next_addr nm
      name_to_ip := mapInsert s.name_to_ip nm s.next_addr
      next_addr := advance s.network_addr s.broadcast_addr s.next_addr } := by
  obtain ⟨a1, a2, a3, a4⟩ := advance_in_range s.network_addr s.broadcast_addr s.next_addr
    h.bro_len h.next_len h.net_valid h.bro_valid h.next_valid h.net_le_bro h.next_lo h.next_hi
  refine ⟨h.bro_len, h.net_valid, h.bro_valid, h.net_le_bro, a1, a2, a3, a4, ?_, ?_, ?_, ?_⟩
  · intro p hp
    rcases lruInsert_subset hp with h1 | h1
    · exact h.keys_len p h1
    · rw [h1]; exact h.next_len
  · intro p hp
    rcases lruInsert_subset hp with h1 | h1
    · exact h.keys_valid p h1
    · rw [h1]; exact h.next_valid
  · intro p hp
    rcases lruInsert_subset hp with h1 | h1
    · exact h.keys_lo p h1
    · rw [h1]; exact h.next_lo
  · intro p hp
    rcases lruInsert_subset hp with h1 | h1
    · exact h.keys_hi p h1
    · rw [h1]; exact h.next_hi

lemma findLoop_geo (nm : Name) (started : Addr) :
    ∀ (fuel : Nat) (s : VirtualDns), Geo s → Geo (findLoop nm started fuel s).2 := by
  intro fuel
  induction fuel with
  | zero => intro s h; exact h
  | succ fuel ih =>
    intro s h
    unfold findLoop
    by_cases hocc : lruContains s.lru_cache s.next_addr = true
    · simp only [hocc, if_true]
      by_cases hwrap : advance s.network_addr s.broadcast_addr s.next_addr = started
      · simp only [hwrap, if_true]
        rcases hcache : s.lru_cache with _ | ⟨⟨old_ip, old_name⟩, rest⟩
        · simp only [hcache]
          rw [← hcache, ← hwrap]
          exact Geo.advanceNext h
        · simp only [hcache]
          exact Geo.evict_geo (Geo.advanceNext h) nm hcache
      · simp only [hwrap, if_false]
        exact ih _ (Geo.advanceNext h)
    · simp only [Bool.not_eq_true] at hocc
      simp only [hocc, Bool.false_eq_true, if_false]
      exact Geo.insertNext h nm

lemma Geo.find_geo {s : VirtualDns} (h : Geo s) (name : Name) :
    Geo (find_or_allocate_ip s name).2 := by
  unfold find_or_allocate_ip
  rcases hl : mapLookup s.name_to_ip (canonicalize s.trailing_dot name) with _ | ip
  · simp only [hl]
    by_cases hfull : s.lru_cache.length = s.capacity
    · rw [if_pos hfull]
      rcases hcache : s.lru_cache with _ | ⟨⟨old_ip, old_name⟩, rest⟩
      · simp only [hcache]
        exact findLoop_geo _ _ _ _ h
      · simp only [hcache]
        exact Geo.evict_geo h _ hcache
    · rw [if_neg hfull]
      exact findLoop_geo _ _ _ _ h
  · simp only [hl]
    exact Geo.touch_geo h ip

lemma Geo.step_geo {s : VirtualDns} (h : Geo s) (op : Op) : Geo (step s op) := by
  cases op with
  | findOp n => exact Geo.find_geo h n
  | touchOp a => exact Geo.touch_geo h a
  | resolveOp a => exact Geo.touch_geo h a

lemma Geo.run_geo {s : VirtualDns} (h : Geo s) (ops : List Op) : Geo (run s ops) := by
  induction ops generalizing s with
  | nil => exact h
  | cons op ops ih =>
    unfold run
    rw [List.foldl_cons]
    exact ih (Geo.step_geo h op)

lemma Geo_new (net bro : Addr) (hbl : bro.length = net.length)
    (hnv : validBytes net) (hbv : validBytes bro)
    (hle : bytesToNat net ≤ bytesToNat bro) : Geo (new net bro) := by
  refine ⟨hbl, hnv, hbv, hle, rfl, hnv, Nat.le_refl _, hle, ?_, ?_, ?_, ?_⟩ <;>
    intro p hp <;> exact absurd hp (List.not_mem_nil p)

/-! ### The probe loop always succeeds -/

lemma findLoop_ok (nm : Name) (started : Addr) :
    ∀ (fuel : Nat) (s : VirtualDns), Geo s →
    started.length = s.network_addr.length → validBytes started →
    bytesToNat s.network_addr ≤ bytesToNat started →
    bytesToNat started ≤ bytesToNat s.broadcast_addr →
    distToStart s started ≤ fuel →
    ∃ a, (findLoop nm started fuel s).1 = Except.ok a := by
  intro fuel
  induction fuel with
  | zero =>
    intro s h _ _ _ _ hd
    exfalso
    have h1 := h.next_lo
    have h2 := h.next_hi
    have h3 := h.net_le_bro
    unfold distToStart poolSize at hd
    split_ifs at hd <;> omega
  | succ fuel ih =>
    intro s h hl hv hlo hhi hd
    unfold findLoop
    by_cases hocc : lruContains s.lru_cache s.next_addr = true
    · simp only [hocc, if_true]
      by_cases hwrap : advance s.network_addr s.broadcast_addr s.next_addr = started
      · simp only [hwrap, if_true]
        rcases hcache : s.lru_cache with _ | ⟨⟨old_ip, old_name⟩, rest⟩
        · exfalso
          rw [hcache] at hocc
          simp [lruContains, lruFind, List.find?] at hocc
        · simp only [hcache]
          exact ⟨old_ip, rfl⟩
      · simp only [hwrap, if_false]
        have hgeo1 : Geo { s with
            next_addr := advance s.network_addr s.broadcast_addr s.next_addr } :=
          Geo.advanceNext h
        apply ih _ hgeo1 hl hv hlo hhi
        have hane : bytesToNat (advance s.network_addr s.broadcast_addr s.next_addr) ≠
            bytesToNat started := by
          intro he
          apply hwrap
          apply bytesToNat_inj _ _ _ hgeo1.next_valid hv he
          rw [hgeo1.next_len, hl]
        have ha_lo := hgeo1.next_lo
        have ha_hi := hgeo1.next_hi
        rcases Nat.lt_or_ge (bytesToNat s.next_addr) (bytesToNat s.broadcast_addr) with hc | hc
        · obtain ⟨e1, _, _⟩ := advance_lt_spec s.network_addr s.broadcast_addr s.next_addr
            h.bro_len h.next_len h.net_valid h.bro_valid h.next_valid h.next_lo hc
          have h1 := h.next_lo
          have h3 := h.net_le_bro
          simp only [distToStart, poolSize] at hd ⊢
          split_ifs at hd ⊢ <;> omega
        · have heqtop : bytesToNat s.next_addr = bytesToNat s.broadcast_addr := by
            have := h.next_hi
            omega
          have e1 : advance s.network_addr s.broadcast_addr s.next_addr = s.network_addr :=
            advance_top_spec s.network_addr s.broadcast_addr s.next_addr
              h.bro_len h.next_len h.net_valid h.bro_valid h.next_valid h.net_le_bro heqtop
          rw [e1] at hane ⊢
          have h3 := h.net_le_bro
          simp only [distToStart, poolSize] at hd ⊢
          split_ifs at hd ⊢ <;> omega
    · simp only [Bool.not_eq_true] at hocc
      simp only [hocc, Bool.false_eq_true, if_false]
      exact ⟨s.next_addr, rfl⟩

/-! ### Canonicalization facts -/

lemma dropWhile_head_not {α : Type} (p : α → Bool) :
    ∀ (l : List α) (c : α) (rest : List α), l.dropWhile p = c :: rest → p c = false := by
  intro l
  induction l with
  | nil =>
    intro c rest h
    rw [List.dropWhile_nil] at h
    exact absurd h (by simp)
  | cons x l ih =>
    intro c rest h
    by_cases hx : p x = true
    · rw [List.dropWhile_cons_of_pos hx] at h
      exact ih c rest h
    · rw [List.dropWhile_cons_of_neg hx] at h
      obtain ⟨h1, _⟩ := List.cons.injEq x l c rest ▸ h
      rw [← h1]
      simpa using hx

lemma mem_takeWhile_sat {α : Type} (p : α → Bool) :
    ∀ (l : List α) (x : α), x ∈ l.takeWhile p → p x = true := by
  intro l
  induction l with
  | nil =>
    intro x hx
    simp [List.takeWhile] at hx
  | cons y l ih =>
    intro x hx
    by_cases hy : p y = true
    · rw [List.takeWhile_cons_of_pos hy] at hx
      rcases List.mem_cons.mp hx with h | h
      · rw [h]; exact hy
      · exact ih x h
    · rw [List.takeWhile_cons_of_neg hy] at hx
      exact absurd hx (List.not_mem_nil x)

lemma trimEndDots_no_dot (n : Name) : endsWithDot (trimEndDots n) = false := by
  unfold trimEndDots endsWithDot
  rw [List.reverse_reverse]
  rcases hd : n.reverse.dropWhile (fun c => decide (c = '.')) with _ | ⟨c, rest⟩
  · rfl
  · exact dropWhile_head_not _ _ c rest hd

lemma trimEndDots_of_not_dot {n : Name} (he : endsWithDot n = false) :
    trimEndDots n = n := by
  unfold trimEndDots
  unfold endsWithDot at he
  rcases hr : n.reverse with _ | ⟨c, rest⟩
  · rw [List.dropWhile_nil, List.reverse_nil]
    have : n = [] := by
      have := congrArg List.reverse hr
      rwa [List.reverse_reverse] at this
    exact this.symm
  · rw [hr] at he
    have he2 : decide (c = '.') = false := he
    rw [List.dropWhile_cons_of_neg (by simp [he2])]
    rw [← hr, List.reverse_reverse]

lemma trimEndDots_decomp (n : Name) :
    ∃ k, n = trimEndDots n ++ List.replicate k '.' := by
  refine ⟨(n.reverse.takeWhile (fun c => decide (c = '.'))).length, ?_⟩
  have hsplit := List.takeWhile_append_dropWhile (fun c => decide (c = '.')) n.reverse
  have h1 : n = (n.reverse.dropWhile (fun c => decide (c = '.'))).reverse ++
      (n.reverse.takeWhile (fun c => decide (c = '.'))).reverse := by
    calc n = n.reverse.reverse := (List.reverse_reverse n).symm
    _ = (n.reverse.takeWhile (fun c => decide (c = '.')) ++
          n.reverse.dropWhile (fun c => decide (c = '.'))).reverse := by rw [hsplit]
    _ = (n.reverse.dropWhile (fun c => decide (c = '.'))).reverse ++
          (n.reverse.takeWhile (fun c => decide (c = '.'))).reverse :=
      List.reverse_append _ _
  have h2 : (n.reverse.takeWhile (fun c => decide (c = '.'))).reverse =
      List.replicate (n.reverse.takeWhile (fun c => decide (c = '.'))).length '.' := by
    apply List.eq_replicate_iff.mpr
    refine ⟨List.length_reverse _, ?_⟩
    intro b hb
    have hb2 : b ∈ n.reverse.takeWhile (fun c => decide (c = '.')) := by
      rwa [List.mem_reverse] at hb
    have := mem_takeWhile_sat _ _ b hb2
    simpa using this
  conv_lhs => rw [h1]
  rw [h2]
  rfl

lemma canonicalize_false_eq (n : Name) : canonicalize false n = trimEndDots n := by
  unfold canonicalize
  rcases he : endsWithDot n with _ | _
  · simp only [he, Bool.false_and, Bool.false_eq_true, if_false]
    exact (trimEndDots_of_not_dot he).symm
  · simp [he]

lemma dropWhile_replicate_dots (k : Nat) (l : List Char) :
    (List.replicate k '.' ++ l).dropWhile (fun c => decide (c = '.')) =
      l.dropWhile (fun c => decide (c = '.')) := by
  induction k with
  | zero => simp
  | succ k ih =>
    rw [List.replicate_succ, List.cons_append, List.dropWhile_cons_of_pos (by simp)]
    exact ih

lemma trimEndDots_append_dots (n : Name) (k : Nat) :
    trimEndDots (n ++ List.replicate k '.') = trimEndDots n := by
  unfold trimEndDots
  rw [List.reverse_append, List.reverse_replicate, dropWhile_replicate_dots]

/-! ### More facts about LRU operations -/

lemma lruTouch_form {c : List (Addr × Name)} {a : Addr} {n : Name}
    (hnd : (c.map Prod.fst).Nodup) (hmem : (a, n) ∈ c) :
    lruTouch c a = c.filter (fun q => ! decide (q.1 = a)) ++ [(a, n)] := by
  unfold lruTouch lruFind
  rw [find?_key_unique c a n hnd hmem]

lemma lruFind_lruInsert_self (c : List (Addr × Name)) (a : Addr) (nm : Name) :
    lruFind (lruInsert c a nm) a = some (a, nm) := by
  unfold lruFind lruInsert
  rw [List.find?_append,
    find?_key_none _ _ (fun p hp => (mem_of_mem_filter_key hp).2),
    Option.none_or, List.find?_cons_of_pos _ (by simp)]

/-! ### The claims -/

/-- C2: Eviction correctness — calling find-or-allocate with a (canonical)
name absent from the reverse index while occupancy equals capacity
(capacity at least 1) removes exactly the least-recently-used pair
`(old_ip, old_name)` from the table, removes `old_name` from the reverse
index, binds the new name to that same address, and an immediate
`resolve_ip` on that address returns the new name, not `old_name`.  The
nodup and lookup-consistency hypotheses hold in every reachable state by
C1. -/
theorem C2_eviction_correct (s : VirtualDns) (name : Name)
    (hfull : s.lru_cache.length = s.capacity)
    (hcap : 1 ≤ s.capacity)
    (hfresh : mapLookup s.name_to_ip (canonicalize s.trailing_dot name) = none)
    (hnd : (s.lru_cache.map Prod.fst).Nodup)
    (hbij : ∀ p ∈ s.lru_cache,
      mapLookup s.name_to_ip (p : Addr × Name).2 = some (p : Addr × Name).1) :
    ∃ old_ip old_name rest,
      s.lru_cache = (old_ip, old_name) :: rest ∧
      (find_or_allocate_ip s name).1 = Except.ok old_ip ∧
      (find_or_allocate_ip s name).2.lru_cache =
        rest ++ [(old_ip, canonicalize s.trailing_dot name)] ∧
      (find_or_allocate_ip s name).2.name_to_ip =
        mapInsert (mapRemove s.name_to_ip old_name)
          (canonicalize s.trailing_dot name) old_ip ∧
      mapLookup (find_or_allocate_ip s name).2.name_to_ip old_name = none ∧
      mapLookup (find_or_allocate_ip s name).2.name_to_ip
        (canonicalize s.trailing_dot name) = some old_ip ∧
      (resolve_ip (find_or_allocate_ip s name).2 old_ip).1 =
        some (canonicalize s.trailing_dot name) := by
  rcases hc : s.lru_cache with _ | ⟨⟨old_ip, old_name⟩, rest⟩
  · exfalso
    rw [hc] at hfull
    simp only [List.length_nil] at hfull
    omega
  · have hold : mapLookup s.name_to_ip old_name = some old_ip := by
      have := hbij (old_ip, old_name) (by rw [hc]; exact List.mem_cons_self _ _)
      simpa using this
    have hne : old_name ≠ canonicalize s.trailing_dot name := by
      intro he
      rw [he] at hold
      rw [hold] at hfresh
      exact Option.noConfusion hfresh
    have hrest_keys : ∀ p ∈ rest, p.1 ≠ old_ip := keys_ne_of_nodup_cons (hc ▸ hnd)
    have hfind : find_or_allocate_ip s name =
        (Except.ok old_ip,
          evictState s rest old_ip old_name (canonicalize s.trailing_dot name)) := by
      unfold find_or_allocate_ip
      simp only [hfresh, hc]
      rw [if_pos (hc ▸ hfull)]
    rw [hfind]
    refine ⟨old_ip, old_name, rest, rfl, rfl, ?_, rfl, ?_, ?_, ?_⟩
    · show lruInsert rest old_ip _ = _
      exact lruInsert_fresh hrest_keys
    · show mapLookup (mapInsert (mapRemove s.name_to_ip old_name) _ old_ip) old_name = none
      rw [mapLookup_mapInsert_ne _ _ _ _ hne, mapLookup_mapRemove_self]
    · exact mapLookup_mapInsert_self _ _ _
    · show ((lruFind (lruInsert rest old_ip _) old_ip).map _) = _
      rw [lruFind_lruInsert_self]
      rfl

/-- C3: Idempotence — when the canonical name is present in the reverse
index with address `ip`, find-or-allocate returns `ip`, leaves the reverse
index unchanged, only refreshes recency of the existing table entry (the
set of table pairs is unchanged), and an immediately repeated call returns
the same `ip` again. -/
theorem C3_idempotent (s : VirtualDns) (name : Name) (ip : Addr)
    (h : mapLookup s.name_to_ip (canonicalize s.trailing_dot name) = some ip)
    (hnd : (s.lru_cache.map Prod.fst).Nodup) :
    (find_or_allocate_ip s name).1 = Except.ok ip ∧
    (find_or_allocate_ip s name).2.name_to_ip = s.name_to_ip ∧
    (∀ p, p ∈ (find_or_allocate_ip s name).2.lru_cache ↔ p ∈ s.lru_cache) ∧
    (find_or_allocate_ip (find_or_allocate_ip s name).2 name).1 = Except.ok ip := by
  have hf : find_or_allocate_ip s name =
      (Except.ok ip, { s with lru_cache := lruTouch s.lru_cache ip }) := by
    unfold find_or_allocate_ip
    simp only [h]
  rw [hf]
  refine ⟨rfl, rfl, ?_, ?_⟩
  · intro p
    exact (lruTouch_perm s.lru_cache ip hnd).mem_iff
  · unfold find_or_allocate_ip
    simp only [h]

/-- C4 counterexample: the claim fails as stated — for the full-range
4-byte pool the derived capacity wraps to 0, yet a single find-or-allocate
raises occupancy to 1, exceeding it. -/
theorem C4_capacity_cex :
    (new [0, 0, 0, 0] [255, 255, 255, 255]).capacity = 0 ∧
    (run (new [0, 0, 0, 0] [255, 255, 255, 255])
        [Op.findOp ['a']]).lru_cache.length = 1 ∧
    ¬ ((run (new [0, 0, 0, 0] [255, 255, 255, 255])
        [Op.findOp ['a']]).lru_cache.length ≤
      (new [0, 0, 0, 0] [255, 255, 255, 255]).capacity) := by decide

/-- C4 (amended): for every resolver whose derived capacity is at least 1,
the occupancy of the LRU table never exceeds the capacity derived from the
pool range, in every reachable state. -/
theorem C4_capacity_bound (net bro : Addr) (hcap : 1 ≤ (new net bro).capacity)
    (ops : List Op) :
    (run (new net bro) ops).lru_cache.length ≤ (new net bro).capacity := by
  have h := Inv.runOps (Inv_new net bro) ops
  have hc := (run_config ops (new net bro)).2.1
  rw [← hc]
  exact h.cap_bound (by rw [hc]; exact hcap)

theorem C4_capacity_bound_witness :
    1 ≤ (new [10, 0, 0, 0] [10, 0, 0, 3]).capacity ∧
    (run (new [10, 0, 0, 0] [10, 0, 0, 3])
        [Op.findOp ['a'], Op.findOp ['b']]).lru_cache.length ≤
      (new [10, 0, 0, 0] [10, 0, 0, 3]).capacity :=
  ⟨by decide, C4_capacity_bound [10, 0, 0, 0] [10, 0, 0, 3] (by decide)
    [Op.findOp ['a'], Op.findOp ['b']]⟩

/-- C5 counterexample: the claim fails as stated — canonicalization strips
every trailing dot, not exactly one: the cache key used for `"a.."` is
`"a"`, not `"a."`. -/
theorem C5_canonicalize_cex :
    canonicalize false ['a', '.', '.'] = ['a'] ∧
    ¬ canonicalize false ['a', '.', '.'] = ['a', '.'] ∧
    mapLookup (run (new [10, 0, 0, 0] [10, 0, 0, 3])
        [Op.findOp ['a', '.', '.']]).name_to_ip ['a', '.'] = none ∧
    mapLookup (run (new [10, 0, 0, 0] [10, 0, 0, 3])
        [Op.findOp ['a', '.', '.']]).name_to_ip ['a'] =
      some [10, 0, 0, 0] := by decide

/-- C5 (amended): when the configuration does not preserve trailing dots,
find-or-allocate uses as its cache key the input name with all trailing
dots removed: the key never ends in a dot, and the input is the key
followed by some number of dots; names not ending in a dot are used
unchanged. -/
theorem C5_canonicalize_amended (n : Name) (t : Bool) :
    (endsWithDot n = false → canonicalize t n = n) ∧
    (t = false →
      canonicalize t n = trimEndDots n ∧
      endsWithDot (trimEndDots n) = false ∧
      ∃ k, n = trimEndDots n ++ List.replicate k '.') := by
  constructor
  · intro he
    unfold canonicalize
    rw [he]
    simp
  · intro ht
    subst ht
    exact ⟨canonicalize_false_eq n, trimEndDots_no_dot n, trimEndDots_decomp n⟩

theorem C5_canonicalize_amended_witness :
    canonicalize false ['a', '.', '.'] = trimEndDots ['a', '.', '.'] ∧
    endsWithDot (trimEndDots ['a', '.', '.']) = false ∧
    (∃ k, ['a', '.', '.'] =
      trimEndDots ['a', '.', '.'] ++ List.replicate k '.') :=
  (C5_canonicalize_amended ['a', '.', '.'] false).2 rfl

/-- C6: Address increment — `increment_ip` preserves the length and byte
validity of the address, computes exactly
`(value + 1) mod 2 ^ (8 * length)` of the big-endian value (the right-to-
left scan that increments the first non-255 byte and zeroes the 255 bytes
before it), and maps an all-255 address to the all-zero address. -/
theorem C6_increment_algorithm (a : Addr) (h : validBytes a) :
    (increment_ip a).length = a.length ∧
    validBytes (increment_ip a) ∧
    bytesToNat (increment_ip a) = (bytesToNat a + 1) % 256 ^ a.length ∧
    ((∀ b ∈ a, b = 255) → increment_ip a = List.replicate a.length 0) :=
  ⟨increment_ip_length a, increment_ip_valid a h, increment_ip_toNat a h,
    increment_ip_allmax a⟩

theorem C6_increment_algorithm_witness :
    validBytes ([10, 0, 0, 255] : Addr) ∧
    ((increment_ip ([10, 0, 0, 255] : Addr)).length =
        ([10, 0, 0, 255] : Addr).length ∧
      validBytes (increment_ip ([10, 0, 0, 255] : Addr)) ∧
      bytesToNat (increment_ip ([10, 0, 0, 255] : Addr)) =
        (bytesToNat ([10, 0, 0, 255] : Addr) + 1) %
          256 ^ ([10, 0, 0, 255] : Addr).length ∧
      ((∀ b ∈ ([10, 0, 0, 255] : Addr), b = 255) →
        increment_ip ([10, 0, 0, 255] : Addr) =
          List.replicate ([10, 0, 0, 255] : Addr).length 0)) :=
  ⟨by decide, C6_increment_algorithm [10, 0, 0, 255] (by decide)⟩

/-- C7 counterexample: the claim fails as stated — for the full-range
4-byte pool the `u32` count `b - n + 1` wraps to 0, so the derived
capacity is 0, not the inclusive count `2 ^ 32`, and `capacity ≥ 1`
fails. -/
theorem C7_capacity_cex :
    (new [0, 0, 0, 0] [255, 255, 255, 255]).capacity = 0 ∧
    bytesToNat [255, 255, 255, 255] - bytesToNat [0, 0, 0, 0] + 1 = 2 ^ 32 ∧
    ¬ 1 ≤ (new [0, 0, 0, 0] [255, 255, 255, 255]).capacity := by decide

/-- C7 (amended): construction computes the capacity as the inclusive
address count of the pool reduced modulo the machine word (`2 ^ 32` via
the `u32` arithmetic for the 4-byte family, `2 ^ 64` via the `as usize`
cast for the 16-byte family); whenever that count is below the modulus —
every pool except full-range or 2^64-aligned ones — the capacity equals
the count and is at least 1. -/
theorem C7_capacity_derivation (net bro : Addr) :
    (new net bro).capacity =
      (bytesToNat bro - bytesToNat net + 1) %
        (if net.length = 4 then 2 ^ 32 else 2 ^ 64) ∧
    (bytesToNat bro - bytesToNat net + 1 <
        (if net.length = 4 then 2 ^ 32 else 2 ^ 64) →
      (new net bro).capacity = bytesToNat bro - bytesToNat net + 1 ∧
      1 ≤ (new net bro).capacity) := by
  have hbase : (new net bro).capacity =
      (bytesToNat bro - bytesToNat net + 1) %
        (if net.length = 4 then 2 ^ 32 else 2 ^ 64) := by
    show derivedCapacity net bro = _
    unfold derivedCapacity
    split_ifs <;> rfl
  refine ⟨hbase, ?_⟩
  intro hlt
  have h1 : (new net bro).capacity = bytesToNat bro - bytesToNat net + 1 := by
    rw [hbase, Nat.mod_eq_of_lt hlt]
  exact ⟨h1, by omega⟩

theorem C7_capacity_derivation_witness :
    bytesToNat [10, 0, 0, 3] - bytesToNat [10, 0, 0, 0] + 1 <
      (if ([10, 0, 0, 0] : Addr).length = 4 then 2 ^ 32 else 2 ^ 64) ∧
    ((new [10, 0, 0, 0] [10, 0, 0, 3]).capacity =
        bytesToNat [10, 0, 0, 3] - bytesToNat [10, 0, 0, 0] + 1 ∧
      1 ≤ (new [10, 0, 0, 0] [10, 0, 0, 3]).capacity) :=
  ⟨by decide, (C7_capacity_derivation [10, 0, 0, 0] [10, 0, 0, 3]).2 (by decide)⟩

/-- C8: Address-space-exhausted error needs a zero-capacity pool — for
every resolver built over a well-formed pool whose derived capacity is at
least 1, find-or-allocate in any reachable state returns an address and
never the exhaustion error. -/
theorem C8_no_exhaustion (net bro : Addr)
    (hbl : bro.length = net.length) (hnv : validBytes net) (hbv : validBytes bro)
    (hle : bytesToNat net ≤ bytesToNat bro)
    (hcap : 1 ≤ (new net bro).capacity)
    (ops : List Op) (name : Name) :
    ∃ a, (find_or_allocate_ip (run (new net bro) ops) name).1 = Except.ok a := by
  have hgeo : Geo (run (new net bro) ops) :=
    Geo.run_geo (Geo_new net bro hbl hnv hbv hle) ops
  have hcfg := (run_config ops (new net bro)).2.1
  have hcap2 : 1 ≤ (run (new net bro) ops).capacity := by
    rw [hcfg]
    exact hcap
  unfold find_or_allocate_ip
  rcases hl : mapLookup (run (new net bro) ops).name_to_ip
      (canonicalize (run (new net bro) ops).trailing_dot name) with _ | ip
  · simp only [hl]
    by_cases hfull : (run (new net bro) ops).lru_cache.length =
        (run (new net bro) ops).capacity
    · rw [if_pos hfull]
      rcases hcache : (run (new net bro) ops).lru_cache with
        _ | ⟨⟨old_ip, old_name⟩, rest⟩
      · exfalso
        rw [hcache] at hfull
        simp only [List.length_nil] at hfull
        omega
      · simp only [hcache]
        exact ⟨old_ip, rfl⟩
    · rw [if_neg hfull]
      apply findLoop_ok _ _ _ _ hgeo hgeo.next_len hgeo.next_valid
        hgeo.next_lo hgeo.next_hi
      have h1 := hgeo.next_lo
      have h2 := hgeo.next_hi
      have h3 := hgeo.net_le_bro
      simp only [distToStart, poolSize]
      split_ifs <;> omega
  · simp only [hl]
    exact ⟨ip, rfl⟩

theorem C8_no_exhaustion_witness :
    (([10, 0, 0, 3] : Addr).length = ([10, 0, 0, 0] : Addr).length ∧
      validBytes ([10, 0, 0, 0] : Addr) ∧ validBytes ([10, 0, 0, 3] : Addr) ∧
      bytesToNat [10, 0, 0, 0] ≤ bytesToNat [10, 0, 0, 3] ∧
      1 ≤ (new [10, 0, 0, 0] [10, 0, 0, 3]).capacity) ∧
    (∃ a, (find_or_allocate_ip (run (new [10, 0, 0, 0] [10, 0, 0, 3]) [])
        ['a']).1 = Except.ok a) :=
  ⟨⟨by decide, by decide, by decide, by decide, by decide⟩,
    C8_no_exhaustion [10, 0, 0, 0] [10, 0, 0, 3] (by decide) (by decide)
      (by decide) (by decide) (by decide) [] ['a']⟩

/-- C9: Recency semantics — touching or resolving a live entry promotes it
to most-recently-used (it becomes the last element of the recency list),
so with at least two live entries the entry just touched is not the head,
i.e. not the one the next LRU eviction removes; `resolve_ip` also returns
the entry name and performs the same recency update as `touch_ip`. -/
theorem C9_recency (s : VirtualDns) (a : Addr) (n : Name)
    (hmem : (a, n) ∈ s.lru_cache)
    (hnd : (s.lru_cache.map Prod.fst).Nodup)
    (h2 : 2 ≤ s.lru_cache.length) :
    (touch_ip s a).lru_cache.getLast? = some (a, n) ∧
    (∃ q qs, (touch_ip s a).lru_cache = q :: qs ∧ (q : Addr × Name).1 ≠ a) ∧
    (resolve_ip s a).1 = some n ∧
    (resolve_ip s a).2.lru_cache = (touch_ip s a).lru_cache := by
  have hform : lruTouch s.lru_cache a
      = s.lru_cache.filter (fun q => ! decide (q.1 = a)) ++ [(a, n)] :=
    lruTouch_form hnd hmem
  have hlen : (lruTouch s.lru_cache a).length = s.lru_cache.length :=
    (lruTouch_perm s.lru_cache a hnd).length_eq
  have hflen : (s.lru_cache.filter (fun q => ! decide (q.1 = a))).length + 1 =
      s.lru_cache.length := by
    rw [← hlen, hform, List.length_append]
    simp
  refine ⟨?_, ?_, ?_, rfl⟩
  · show (lruTouch s.lru_cache a).getLast? = some (a, n)
    rw [hform]
    exact List.getLast?_concat _
  · rcases hf : s.lru_cache.filter (fun q => ! decide (q.1 = a)) with _ | ⟨q, qs⟩
    · exfalso
      rw [hf] at hflen
      simp only [List.length_nil] at hflen
      omega
    · refine ⟨q, qs ++ [(a, n)], ?_, ?_⟩
      · show lruTouch s.lru_cache a = _
        rw [hform, hf]
        simp
      · have hqm : q ∈ s.lru_cache.filter (fun r => ! decide (r.1 = a)) := by
          rw [hf]
          exact List.mem_cons_self _ _
        exact (mem_of_mem_filter_key hqm).2
  · show ((lruFind s.lru_cache a).map (fun p => p.2)) = some n
    rw [show lruFind s.lru_cache a = some (a, n) from
      find?_key_unique s.lru_cache a n hnd hmem]
    rfl

/-- C10: The public constructor always sets `trailing_dot` to false and no
operation ever changes it, so every reachable state strips trailing dots;
consequently two names differing only in trailing dots are
indistinguishable to find-or-allocate: the call on `name ++ dots` is
literally the same computation as the call on `name`. -/
theorem C10_trailing_dot_false (net bro : Addr) :
    (∀ ops, (run (new net bro) ops).trailing_dot = false) ∧
    (∀ s : VirtualDns, s.trailing_dot = false → ∀ (n : Name) (k : Nat),
      find_or_allocate_ip s (n ++ List.replicate k '.') =
        find_or_allocate_ip s n) := by
  constructor
  · intro ops
    rw [(run_config ops (new net bro)).1]
    rfl
  · intro s hs n k
    unfold find_or_allocate_ip
    rw [hs, canonicalize_false_eq, canonicalize_false_eq, trimEndDots_append_dots]

theorem C10_trailing_dot_false_witness :
    (run (new [10, 0, 0, 0] [10, 0, 0, 3])
      [Op.findOp ['a']]).trailing_dot = false ∧
    find_or_allocate_ip (new [10, 0, 0, 0] [10, 0, 0, 3])
        (['a'] ++ List.replicate 2 '.') =
      find_or_allocate_ip (new [10, 0, 0, 0] [10, 0, 0, 3]) ['a'] :=
  ⟨(C10_trailing_dot_false [10, 0, 0, 0] [10, 0, 0, 3]).1 [Op.findOp ['a']],
    (C10_trailing_dot_false [10, 0, 0, 0] [10, 0, 0, 3]).2 _ rfl ['a'] 2⟩

theorem C2_eviction_correct_witness :
    (wstate.lru_cache.length = wstate.capacity ∧ 1 ≤ wstate.capacity ∧
      mapLookup wstate.name_to_ip (canonicalize wstate.trailing_dot ['c']) = none) ∧
    (∃ old_ip old_name rest,
      wstate.lru_cache = (old_ip, old_name) :: rest ∧
      (find_or_allocate_ip wstate ['c']).1 = Except.ok old_ip ∧
      (find_or_allocate_ip wstate ['c']).2.lru_cache =
        rest ++ [(old_ip, canonicalize wstate.trailing_dot ['c'])] ∧
      (find_or_allocate_ip wstate ['c']).2.name_to_ip =
        mapInsert (mapRemove wstate.name_to_ip old_name)
          (canonicalize wstate.trailing_dot ['c']) old_ip ∧
      mapLookup (find_or_allocate_ip wstate ['c']).2.name_to_ip old_name = none ∧
      mapLookup (find_or_allocate_ip wstate ['c']).2.name_to_ip
        (canonicalize wstate.trailing_dot ['c']) = some old_ip ∧
      (resolve_ip (find_or_allocate_ip wstate ['c']).2 old_ip).1 =
        some (canonicalize wstate.trailing_dot ['c'])) :=
  ⟨⟨by decide, by decide, by decide⟩,
    C2_eviction_correct wstate ['c'] (by decide) (by decide) (by decide)
      (by decide) (by decide)⟩

theorem C3_idempotent_witness :
    mapLookup wstate.name_to_ip (canonicalize wstate.trailing_dot ['a']) =
      some [10, 0, 0, 0] ∧
    ((find_or_allocate_ip wstate ['a']).1 = Except.ok [10, 0, 0, 0] ∧
      (find_or_allocate_ip wstate ['a']).2.name_to_ip = wstate.name_to_ip ∧
      (∀ p, p ∈ (find_or_allocate_ip wstate ['a']).2.lru_cache ↔
        p ∈ wstate.lru_cache) ∧
      (find_or_allocate_ip (find_or_allocate_ip wstate ['a']).2 ['a']).1 =
        Except.ok [10, 0, 0, 0]) :=
  ⟨by decide, C3_idempotent wstate ['a'] [10, 0, 0, 0] (by decide) (by decide)⟩

theorem C9_recency_witness :
    (([10, 0, 0, 0], ['a']) ∈ wstate.lru_cache ∧
      (wstate.lru_cache.map Prod.fst).Nodup ∧ 2 ≤ wstate.lru_cache.length) ∧
    ((touch_ip wstate [10, 0, 0, 0]).lru_cache.getLast? =
        some ([10, 0, 0, 0], ['a']) ∧
      (∃ q qs, (touch_ip wstate [10, 0, 0, 0]).lru_cache = q :: qs ∧
        (q : Addr × Name).1 ≠ [10, 0, 0, 0]) ∧
      (resolve_ip wstate [10, 0, 0, 0]).1 = some ['a'] ∧
      (resolve_ip wstate [10, 0, 0, 0]).2.lru_cache =
        (touch_ip wstate [10, 0, 0, 0]).lru_cache) :=
  ⟨⟨by decide, by decide, by decide⟩,
    C9_recency wstate [10, 0, 0, 0] ['a'] (by decide) (by decide) (by decide)⟩

end VDns
